import Mathlib

/-!
Verification of the newsletter aggregation pipeline (src/main.py).

The embedding below translates the pure logic of src/main.py into Lean:
strings become lists of characters where character-level scanning matters,
Python datetimes become integer second counts, the history file becomes an
explicit value threaded through the run, and the external HTTP layer is
represented by the value it would hand back to the code.
-/

set_option autoImplicit false

/-- Embeds a feedparser entry as used by the pipeline: `entry.get("link")`
(absent key gives `none`), `entry.get("published_parsed")` modelled as an
optional UTC timestamp in seconds, plus the title payload. -/
structure Entry where
  link : Option String
  published : Option Int
  title : String
deriving DecidableEq, Repr

/-- Embeds `within_lookback` (src/main.py:50-54): a missing
`published_parsed` keeps the entry (fail-open); otherwise the entry is kept
when its timestamp is at least `now - lookback_hours` hours, i.e. the code
compares with `>=`. Times are seconds; `timedelta(hours=h)` is `h * 3600`. -/
def within_lookback (published_parsed : Option Int) (lookback_hours : Int) (now : Int) : Bool :=
  match published_parsed with
  | none => true
  | some t => decide (now - lookback_hours * 3600 ≤ t)

/-- Embeds the dedup loop of `__main__` (src/main.py:162-168):
`if link and link not in seen: seen.add(link); uniq.append(it)`.
A `none` link and an empty-string link are both falsy in Python, so such
items are skipped and never enter the seen-set. -/
def dedupLoop : List Entry → List String → List Entry
  | [], _ => []
  | it :: rest, seen =>
    match it.link with
    | some l =>
      if l != "" && !(seen.contains l) then it :: dedupLoop rest (l :: seen)
      else dedupLoop rest seen
    | none => dedupLoop rest seen

/-- Embeds the persisted history file (history.json): absent, unparseable
(`json.load` raises), or a JSON array of identifier strings. -/
inductive HistoryFile where
  | missing : HistoryFile
  | malformed : HistoryFile
  | wellformed : List String → HistoryFile
deriving DecidableEq, Repr

/-- Embeds `load_history` (src/main.py:107-114): missing file gives the
empty set, any exception while reading or parsing gives the empty set,
otherwise the identifiers of the JSON array (the Python function wraps them
in `set(...)`; the embedding keeps the underlying elements). -/
def load_history : HistoryFile → List String
  | .missing => []
  | .malformed => []
  | .wellformed ids => ids

/-- Embeds the Python slice `xs[start:]` for an arbitrary integer `start`:
a negative start counts from the end and clamps at 0; a nonnegative start
drops that many elements. -/
def pySliceFrom {α : Type} (xs : List α) (start : Int) : List α :=
  if start < 0 then xs.drop (((xs.length : Int) + start).toNat)
  else xs.drop start.toNat

/-- Embeds `save_history` (src/main.py:116-119):
`data = list(seen_links)[-limit:]` — the retained data is the `[-limit:]`
slice of the identifier sequence. The set argument is represented by the
sequence in which its elements are iterated. -/
def save_history (seen_links : List String) (limit : Int) : List String :=
  pySliceFrom seen_links (-limit)

/-- Embeds the response the bot API hands back to `requests.post`:
an HTTP status code and the application-level `ok` flag of the body. -/
structure TgResponse where
  status : Nat
  ok : Bool
deriving DecidableEq, Repr

/-- Embeds `telegram_send` (src/main.py:56-61): the function performs the
POST and returns without looking at the response object; only a transport
exception (modelled as the `Except.error` case of the POST outcome)
escapes. The response value itself is dropped. -/
def telegram_send (post_result : Except String TgResponse) : Except String Unit :=
  match post_result with
  | .error e => .error e
  | .ok _ => .ok ()

/-- Embeds the telegram delivery block of `__main__` (src/main.py:189-199):
the try/except around `telegram_send` prints an OK line on return and an
ERR line on exception; either way the run continues. -/
def telegramStep (post_result : Except String TgResponse) : String :=
  match telegram_send post_result with
  | .ok _ => "[OK] Telegram envoyé."
  | .error e => "[ERR] Telegram: " ++ e

/-- Embeds the `__main__` pipeline core (src/main.py:153-177): recency
filter over the fetched entries, the dedup loop with a seen-set that starts
empty (`seen = set()` at line 162 — `load_history` is defined at lines
107-114 but never called), truncation `uniq[:MAX_ITEMS]`, and the history
file as the run leaves it: `save_history` is never called either, so the
file is returned unchanged. -/
def mainRun (history : HistoryFile) (entries : List Entry) (lookback_hours now : Int)
    (maxItems : Nat) : List Entry × HistoryFile :=
  ((dedupLoop (entries.filter fun e => within_lookback e.published lookback_hours now) []).take
      maxItems,
    history)

/-- Python whitespace for `str.strip()`. -/
def pyIsSpace (c : Char) : Bool :=
  c == ' ' || c == '\t' || c == '\n' || c == '\r' || c == '\x0b' || c == '\x0c'

/-- Embeds Python `str.strip()`: drop whitespace from both ends. -/
def pyStrip (xs : List Char) : List Char :=
  ((xs.dropWhile fun c => pyIsSpace c).reverse.dropWhile fun c => pyIsSpace c).reverse

/-- Sentence terminators of `first_sentences`: `ch in ".!?"`. -/
def isTerminator (c : Char) : Bool :=
  c == '.' || c == '!' || c == '?'

/-- Embeds the scanning loop of `first_sentences` (src/main.py:26-33):
walk the text by index; at each terminator append the stripped slice
`text[start:i+1]` and restart after it, stopping once `max_sentences`
parts are collected. `text` is the whole input, the first list argument the
yet-unscanned suffix, `i` its absolute index, `start` the current slice
start. -/
def sentScan (text : List Char) : List Char → Nat → Nat → Nat → List (List Char) → List (List Char)
  | [], _, _, _, parts => parts
  | c :: rest, i, start, maxS, parts =>
    if isTerminator c then
      if maxS ≤ (parts ++ [pyStrip ((text.drop start).take (i + 1 - start))]).length then
        parts ++ [pyStrip ((text.drop start).take (i + 1 - start))]
      else sentScan text rest (i + 1) (i + 1) maxS (parts ++ [pyStrip ((text.drop start).take (i + 1 - start))])
    else sentScan text rest (i + 1) start maxS parts

/-- Embeds `first_sentences` (src/main.py:23-36): empty text gives empty
output; otherwise scan for sentences; when no terminator was found fall
back to `[text[:240].strip()]`; finally `" ".join(parts)`. -/
def first_sentences (text : List Char) (maxS : Nat) : List Char :=
  if text = [] then []
  else
    List.intercalate [' ']
      (if sentScan text text 0 0 maxS [] = [] then [pyStrip (text.take 240)]
       else sentScan text text 0 0 maxS [])

/-- Tag-removal state machine: outside a tag, `<` opens a tag and is
replaced by inserted whitespace; inside a tag everything up to `>` is
dropped. The Bool is the inside-a-tag state. -/
def untagAux : List Char → Bool → List Char
  | [], _ => []
  | c :: rest, true => if c = '>' then untagAux rest false else untagAux rest true
  | c :: rest, false => if c = '<' then ' ' :: untagAux rest true else c :: untagAux rest false

/-- Removes markup tags, starting outside any tag. -/
def untag (xs : List Char) : List Char :=
  untagAux xs false

/-- Splits a character list into maximal whitespace-free words; `cur` is
the current word accumulated in reverse. -/
def wordsAux : List Char → List Char → List (List Char)
  | [], cur => if cur = [] then [] else [cur.reverse]
  | c :: rest, cur =>
    if pyIsSpace c then
      if cur = [] then wordsAux rest [] else cur.reverse :: wordsAux rest []
    else wordsAux rest (c :: cur)

/-- The whitespace-delimited words of a character list. -/
def wordsOf (xs : List Char) : List (List Char) :=
  wordsAux xs []

/-- Modelled from the spec: `strip_markup` (§4.1). The source `strip_html`
(src/main.py:17-21) delegates the actual markup removal to the external
BeautifulSoup/html5lib parser, whose algorithm is not part of this
repository; following the contract's words — "removes all markup tags and
collapses inserted whitespace" — tags are removed (each replaced by
inserted whitespace) and whitespace is then collapsed by splitting into
words and rejoining with single spaces, which also trims the ends. -/
def strip_markup (xs : List Char) : List Char :=
  List.intercalate [' '] (wordsOf (untag xs))

/-- Sample entry with a link and no timestamp. -/
def e1 : Entry :=
  ⟨some "https://a/1", none, "t1"⟩

/-- Sample entry lacking a link. -/
def eNoLink : Entry :=
  ⟨none, none, "no-link"⟩

/-- Sample entry whose link is the empty string (falsy in Python). -/
def eEmptyLink : Entry :=
  ⟨some "", none, "empty-link"⟩

/-- Fifteen entries with pairwise distinct links, all without timestamps,
so all qualify under any lookback window. -/
def entries15 : List Entry :=
  (List.range 15).map fun i => ⟨some ("L" ++ Nat.repr i), none, "t"⟩

/-- Unfolding equation for `dedupLoop` at an entry without a link. -/
theorem dedupLoop_cons_none (e : Entry) (rest : List Entry) (seen : List String)
    (h : e.link = none) : dedupLoop (e :: rest) seen = dedupLoop rest seen := by
  obtain ⟨lnk, p, t⟩ := e
  cases lnk with
  | none => rfl
  | some a => exact absurd h (by simp)

/-- Unfolding equation for `dedupLoop` at an entry with a link. -/
theorem dedupLoop_cons_some (e : Entry) (rest : List Entry) (seen : List String) (l : String)
    (h : e.link = some l) :
    dedupLoop (e :: rest) seen =
      if l != "" && !(seen.contains l) then e :: dedupLoop rest (l :: seen)
      else dedupLoop rest seen := by
  obtain ⟨lnk, p, t⟩ := e
  cases lnk with
  | none => exact absurd h (by simp)
  | some a =>
    have ha : a = l := by simpa using h
    subst ha
    rfl

/-- C1: the claim says an identifier present in the loaded persisted
history is suppressed from the final list like an in-run duplicate;
the code never consults the history: `load_history` and `save_history`
are dead code, the seen-set starts empty, and the history file is left
unchanged, so the same identifier appears in two consecutive runs'
final lists even when it sits in a wellformed history file. -/
theorem c1_history_unused_repeats :
    (mainRun (.wellformed ["https://a/1"]) [e1] 24 0 12).1 = [e1] ∧
      e1 ∈ (mainRun .missing [e1] 24 0 12).1 ∧
      (mainRun .missing [e1] 24 0 12).2 = .missing ∧
      e1 ∈ (mainRun (mainRun .missing [e1] 24 0 12).2 [e1] 24 0 12).1 ∧
      load_history (.wellformed ["https://a/1"]) = ["https://a/1"] ∧
      e1.link = some "https://a/1" := by
  decide

/-- C2: the claim says a success HTTP status whose body carries an explicit
failure flag is reported as a failure distinct from a transport failure;
the code discards the response of the POST, so an ok-status response with
`ok = false` is reported as plain success, while only a transport
exception produces the error line. -/
theorem c2_api_flag_ignored :
    telegramStep (.ok ⟨200, false⟩) = "[OK] Telegram envoyé." ∧
      telegramStep (.error "timeout") = "[ERR] Telegram: timeout" :=
  ⟨rfl, rfl⟩

/-- C3 counterexample: at `limit = 0` the slice `[-limit:]` is `[0:]`, the
whole list, so a one-element input is persisted in full, refuting
"persists at most limit identifiers" for every limit. -/
theorem c3_save_counterexample :
    save_history ["a"] 0 = ["a"] ∧ ¬ (((save_history ["a"] 0).length : Int) ≤ 0) := by
  decide

/-- C3 amended: for every positive limit, `save_history` persists at most
`limit` identifiers, and when the input exceeds the limit the retained
subset is exactly the tail of the input sequence of length `limit`
(oldest elements discarded first). -/
theorem c3_save_amended (xs : List String) (limit : Int) (hpos : 0 < limit) :
    ((save_history xs limit).length : Int) ≤ limit ∧
      ((limit : Int) < (xs.length : Int) →
        save_history xs limit = xs.drop (xs.length - limit.toNat)) := by
  unfold save_history pySliceFrom
  rw [if_pos (by omega : -limit < 0)]
  constructor
  · rw [List.length_drop]
    omega
  · intro hlt
    have h : ((xs.length : Int) + -limit).toNat = xs.length - limit.toNat := by omega
    rw [h]

/-- C3 witness: the amended statement at a three-element input with
limit 2 retains exactly the last two identifiers. -/
theorem c3_save_witness :
    ((save_history ["a", "b", "c"] 2).length : Int) ≤ 2 ∧
      save_history ["a", "b", "c"] 2 = ["b", "c"] := by
  have h := c3_save_amended ["a", "b", "c"] 2 (by decide)
  refine ⟨h.1, ?_⟩
  rw [h.2 (by decide)]
  rfl

/-- C4 counterexample: the claim says an item lacking a link is kept and
may appear in the final output; the dedup loop's `if link and ...` test is
falsy for a missing link, so the item is dropped from the output. -/
theorem c4_nolink_counterexample :
    eNoLink.link = none ∧ eNoLink ∉ dedupLoop [eNoLink] [] := by
  decide

/-- C4 amended: in the dedup step an item is kept exactly when its link is
non-empty and not already in the seen-set. Every surviving item has a
non-empty link; a head item lacking a link, with an empty link, or whose
link is already in the seen-set is discarded (and the seen-set is left
unchanged); a head item with a fresh non-empty link is kept and its link
added to the seen-set. -/
theorem c4_dedup_amended :
    (∀ (entries : List Entry) (seen : List String) (x : Entry),
        x ∈ dedupLoop entries seen → ∃ l, x.link = some l ∧ l ≠ "") ∧
      (∀ (e : Entry) (rest : List Entry) (seen : List String),
        e.link = none → dedupLoop (e :: rest) seen = dedupLoop rest seen) ∧
      (∀ (e : Entry) (rest : List Entry) (seen : List String),
        e.link = some "" → dedupLoop (e :: rest) seen = dedupLoop rest seen) ∧
      (∀ (e : Entry) (rest : List Entry) (seen : List String) (l : String),
        e.link = some l → seen.contains l = true →
          dedupLoop (e :: rest) seen = dedupLoop rest seen) ∧
      (∀ (e : Entry) (rest : List Entry) (seen : List String) (l : String),
        e.link = some l → l ≠ "" → seen.contains l = false →
          dedupLoop (e :: rest) seen = e :: dedupLoop rest (l :: seen)) := by
  refine ⟨?_, ?_, ?_, ?_, ?_⟩
  · intro entries
    induction entries with
    | nil => intro seen x hx; simp [dedupLoop] at hx
    | cons it rest ih =>
      intro seen x hx
      cases hl : it.link with
      | none =>
        rw [dedupLoop_cons_none it rest seen hl] at hx
        exact ih seen x hx
      | some l =>
        rw [dedupLoop_cons_some it rest seen l hl] at hx
        by_cases hc : (l != "" && !(seen.contains l)) = true
        · rw [if_pos hc] at hx
          rcases List.mem_cons.mp hx with hx | hx
          · subst hx
            refine ⟨l, hl, ?_⟩
            simpa using (Bool.and_eq_true_iff.mp hc).1
          · exact ih (l :: seen) x hx
        · rw [if_neg hc] at hx
          exact ih seen x hx
  · intro e rest seen h
    exact dedupLoop_cons_none e rest seen h
  · intro e rest seen h
    rw [dedupLoop_cons_some e rest seen "" h, if_neg]
    simp
  · intro e rest seen l h1 h2
    have hm : l ∈ seen := by simpa using h2
    rw [dedupLoop_cons_some e rest seen l h1, if_neg]
    simp [hm]
  · intro e rest seen l h1 h2 h3
    have hb : (l != "" && !(seen.contains l)) = true := by
      rw [h3]
      simp [h2]
    rw [dedupLoop_cons_some e rest seen l h1, if_pos hb]

/-- C4 witness: the amended statement at concrete inputs — the linkless
and empty-link sample entries are skipped, an entry whose link is already
in the seen-set is discarded, a fresh-link entry is kept with a non-empty
identifier, and a duplicated entry survives only once. -/
theorem c4_dedup_witness :
    (∃ l, e1.link = some l ∧ l ≠ "") ∧
      dedupLoop [eNoLink, e1] [] = dedupLoop [e1] [] ∧
      dedupLoop [eEmptyLink, e1] [] = dedupLoop [e1] [] ∧
      dedupLoop [e1] ["https://a/1"] = [] ∧
      dedupLoop [e1, e1] [] = [e1] := by
  refine ⟨?_, ?_, ?_, ?_, ?_⟩
  · exact c4_dedup_amended.1 [e1] [] e1 (by decide)
  · exact c4_dedup_amended.2.1 eNoLink [e1] [] rfl
  · exact c4_dedup_amended.2.2.1 eEmptyLink [e1] [] rfl
  · rw [c4_dedup_amended.2.2.2.1 e1 [] ["https://a/1"] "https://a/1" rfl rfl]
    rfl
  · rw [c4_dedup_amended.2.2.2.2 e1 [e1] [] "https://a/1" rfl (by decide) rfl,
      c4_dedup_amended.2.2.2.1 e1 [] ["https://a/1"] "https://a/1" rfl rfl]
    rfl

/-- C5: the final list of every run is the `take maxItems` of the ordered
dedup survivors, so its length is at most the configured maximum and the
retained items are exactly the first survivors in fetch order; with the
fifteen distinct-link sample entries and maxItems 12 the result is exactly
the first twelve in fetch order. -/
theorem c5_truncation_cap :
    (∀ (history : HistoryFile) (entries : List Entry) (lb now : Int) (m : Nat),
        (mainRun history entries lb now m).1.length ≤ m ∧
          (mainRun history entries lb now m).1 =
            (dedupLoop (entries.filter fun e => within_lookback e.published lb now) []).take m) ∧
      (mainRun .missing entries15 24 0 12).1 = entries15.take 12 := by
  constructor
  · intro history entries lb now m
    refine ⟨?_, rfl⟩
    show ((dedupLoop (entries.filter fun e => within_lookback e.published lb now) []).take
        m).length ≤ m
    rw [List.length_take]
    exact min_le_left _ _
  · decide

/-- C6: an entry with a present timestamp strictly older than the lookback
window is discarded, an entry with no timestamp is kept, an entry
published lookback+1 hours ago is excluded and one published lookback-1
hours ago is included. -/
theorem c6_recency_filter (now lb t : Int) (hold : t < now - lb * 3600) :
    within_lookback (some t) lb now = false ∧
      within_lookback none lb now = true ∧
      within_lookback (some (now - (lb + 1) * 3600)) lb now = false ∧
      within_lookback (some (now - (lb - 1) * 3600)) lb now = true := by
  refine ⟨?_, rfl, ?_, ?_⟩ <;> simp [within_lookback] <;> omega

/-- C6 witness: the recency filter at now 0, lookback 24 hours, and a
timestamp 25 hours in the past. -/
theorem c6_recency_witness :
    within_lookback (some (-90000)) 24 0 = false ∧
      within_lookback none 24 0 = true ∧
      within_lookback (some (0 - (24 + 1) * 3600)) 24 0 = false ∧
      within_lookback (some (0 - (24 - 1) * 3600)) 24 0 = true :=
  c6_recency_filter 0 24 (-90000) (by decide)

/-- C9: `load_history` returns the persisted identifiers of a wellformed
history file and the empty set when the file is missing or malformed, so
corruption never aborts the run. -/
theorem c9_load_history_safe :
    load_history .missing = [] ∧ load_history .malformed = [] ∧
      ∀ ids, load_history (.wellformed ids) = ids :=
  ⟨rfl, rfl, fun _ => rfl⟩

/-- C10: the window boundary is inclusive — an entry whose timestamp is
exactly now minus the lookback window passes the filter, because
`within_lookback` compares with a non-strict inequality. -/
theorem c10_lookback_boundary (now lb : Int) :
    within_lookback (some (now - lb * 3600)) lb now = true := by
  simp [within_lookback]

/-- Joining a single part with the space separator yields the part. -/
theorem intercalate_single_list (s x : List Char) : List.intercalate s [x] = x := by
  simp [List.intercalate]

/-- The sentence scan collects nothing when the remaining text holds no
terminator character. -/
theorem sentScan_no_term (text : List Char) :
    ∀ (s : List Char) (i start maxS : Nat) (parts : List (List Char)),
      (∀ c ∈ s, isTerminator c = false) → sentScan text s i start maxS parts = parts := by
  intro s
  induction s with
  | nil => intro i start maxS parts h; rfl
  | cons c rest ih =>
    intro i start maxS parts h
    have hc : isTerminator c = false := h c (by simp)
    simp only [sentScan, hc, Bool.false_eq_true, if_false]
    exact ih (i + 1) start maxS parts fun a ha => h a (by simp [ha])

/-- C7: on text with no sentence terminator and more than 240 characters,
`first_sentences` falls back to the stripped first 240 characters. -/
theorem c7_excerpt_fallback (text : List Char)
    (hterm : ∀ c ∈ text, isTerminator c = false) (hlen : 240 < text.length) :
    first_sentences text 2 = pyStrip (text.take 240) := by
  have hne : text ≠ [] := by
    intro h
    rw [h] at hlen
    simp at hlen
  unfold first_sentences
  rw [if_neg hne, sentScan_no_term text text 0 0 2 [] hterm, if_pos rfl,
    intercalate_single_list]

set_option maxRecDepth 8000 in
/-- C7 witness: 241 copies of a non-terminator character yield exactly the
stripped first 240 characters. -/
theorem c7_excerpt_witness :
    first_sentences (List.replicate 241 'a') 2 = pyStrip ((List.replicate 241 'a').take 240) :=
  c7_excerpt_fallback (List.replicate 241 'a') (by decide) (by decide)

/-- Unfolding equation for the word splitter at the end of the input. -/
theorem wordsAux_nil (cur : List Char) :
    wordsAux [] cur = if cur = [] then [] else [cur.reverse] :=
  rfl

/-- Unfolding equation for the word splitter at one more character. -/
theorem wordsAux_cons (c : Char) (rest cur : List Char) :
    wordsAux (c :: rest) cur =
      if pyIsSpace c then
        if cur = [] then wordsAux rest [] else cur.reverse :: wordsAux rest []
      else wordsAux rest (c :: cur) :=
  rfl

/-- Every word produced by the splitter is nonempty and whitespace-free,
provided the accumulated current word is whitespace-free. -/
theorem wordsAux_sound :
    ∀ (xs cur : List Char), (∀ c ∈ cur, pyIsSpace c = false) →
      ∀ w ∈ wordsAux xs cur, w ≠ [] ∧ ∀ c ∈ w, pyIsSpace c = false := by
  intro xs
  induction xs with
  | nil =>
    intro cur hcur w hw
    rw [wordsAux_nil] at hw
    by_cases hc : cur = []
    · simp [hc] at hw
    · rw [if_neg hc, List.mem_singleton] at hw
      subst hw
      exact ⟨by simpa using hc, fun c hcm => hcur c (List.mem_reverse.mp hcm)⟩
  | cons c rest ih =>
    intro cur hcur w hw
    rw [wordsAux_cons] at hw
    by_cases hsp : pyIsSpace c = true
    · rw [if_pos hsp] at hw
      by_cases hc : cur = []
      · rw [if_pos hc] at hw
        exact ih [] (by simp) w hw
      · rw [if_neg hc] at hw
        rcases List.mem_cons.mp hw with hw | hw
        · subst hw
          exact ⟨by simpa using hc, fun a ham => hcur a (List.mem_reverse.mp ham)⟩
        · exact ih [] (by simp) w hw
    · rw [if_neg hsp] at hw
      refine ih (c :: cur) ?_ w hw
      intro a ham
      rcases List.mem_cons.mp ham with rfl | ham
      · simpa using hsp
      · exact hcur a ham

/-- Every character of a produced word comes from the input or from the
accumulated current word. -/
theorem wordsAux_mem :
    ∀ (xs cur w : List Char), w ∈ wordsAux xs cur → ∀ a ∈ w, a ∈ xs ∨ a ∈ cur := by
  intro xs
  induction xs with
  | nil =>
    intro cur w hw a ha
    rw [wordsAux_nil] at hw
    by_cases hc : cur = []
    · simp [hc] at hw
    · rw [if_neg hc, List.mem_singleton] at hw
      subst hw
      exact Or.inr (List.mem_reverse.mp ha)
  | cons c rest ih =>
    intro cur w hw a ha
    rw [wordsAux_cons] at hw
    by_cases hsp : pyIsSpace c = true
    · rw [if_pos hsp] at hw
      by_cases hc : cur = []
      · rw [if_pos hc] at hw
        rcases ih [] w hw a ha with h | h
        · exact Or.inl (List.mem_cons_of_mem c h)
        · simp at h
      · rw [if_neg hc] at hw
        rcases List.mem_cons.mp hw with rfl | hw
        · exact Or.inr (List.mem_reverse.mp ha)
        · rcases ih [] w hw a ha with h | h
          · exact Or.inl (List.mem_cons_of_mem c h)
          · simp at h
    · rw [if_neg hsp] at hw
      rcases ih (c :: cur) w hw a ha with h | h
      · exact Or.inl (List.mem_cons_of_mem c h)
      · rcases List.mem_cons.mp h with rfl | h
        · exact Or.inl (List.mem_cons_self _ _)
        · exact Or.inr h

/-- Scanning a whitespace-free block accumulates it onto the current
word. -/
theorem wordsAux_append :
    ∀ (w z cur : List Char), (∀ c ∈ w, pyIsSpace c = false) →
      wordsAux (w ++ z) cur = wordsAux z (w.reverse ++ cur) := by
  intro w
  induction w with
  | nil => intro z cur h; simp
  | cons c w ih =>
    intro z cur h
    have hc : pyIsSpace c = false := h c (List.mem_cons_self c w)
    rw [List.cons_append, wordsAux_cons, if_neg (by simp [hc]),
      ih z (c :: cur) fun a ha => h a (List.mem_cons_of_mem c ha)]
    congr 1
    simp

/-- Joining at least two parts with the separator unfolds one step. -/
theorem intercalate_cons_cons (s x : List Char) (L : List (List Char)) (h : L ≠ []) :
    List.intercalate s (x :: L) = x ++ s ++ List.intercalate s L := by
  cases L with
  | nil => exact absurd rfl h
  | cons y L' => simp [List.intercalate, List.intersperse_cons_cons, List.append_assoc]

/-- A character of a space-joined list of parts is the space or comes from
one of the parts. -/
theorem mem_intercalate_space :
    ∀ (L : List (List Char)) (c : Char),
      c ∈ List.intercalate [' '] L → c = ' ' ∨ ∃ l ∈ L, c ∈ l := by
  intro L
  induction L with
  | nil => intro c hc; simp [List.intercalate] at hc
  | cons x L ih =>
    intro c hc
    cases L with
    | nil =>
      rw [intercalate_single_list] at hc
      exact Or.inr ⟨x, List.mem_cons_self x [], hc⟩
    | cons y L' =>
      rw [intercalate_cons_cons _ _ _ (by simp), List.append_assoc] at hc
      rcases List.mem_append.mp hc with hc | hc
      · exact Or.inr ⟨x, by simp, hc⟩
      · rcases List.mem_append.mp hc with hc | hc
        · exact Or.inl (by simpa using hc)
        · rcases ih c hc with h | ⟨l, hl, hcl⟩
          · exact Or.inl h
          · exact Or.inr ⟨l, List.mem_cons_of_mem x hl, hcl⟩

/-- Splitting a space-join of nonempty whitespace-free parts gives back the
parts. -/
theorem wordsOf_intercalate :
    ∀ (L : List (List Char)),
      (∀ l ∈ L, l ≠ [] ∧ ∀ c ∈ l, pyIsSpace c = false) →
      wordsOf (List.intercalate [' '] L) = L := by
  intro L
  induction L with
  | nil => intro h; simp [List.intercalate, wordsOf, wordsAux]
  | cons x L ih =>
    intro h
    have hx := h x (List.mem_cons_self x L)
    cases L with
    | nil =>
      rw [intercalate_single_list]
      show wordsAux x [] = [x]
      have hax := wordsAux_append x [] [] hx.2
      rw [List.append_nil, List.append_nil] at hax
      rw [hax, wordsAux_nil, if_neg (by simpa using hx.1)]
      simp
    | cons y L' =>
      rw [intercalate_cons_cons _ _ _ (by simp), List.append_assoc]
      show wordsAux (x ++ ([' '] ++ List.intercalate [' '] (y :: L'))) [] = x :: y :: L'
      rw [wordsAux_append x _ [] hx.2, List.append_nil, List.singleton_append,
        wordsAux_cons, if_pos (by decide : pyIsSpace ' ' = true),
        if_neg (by simpa using hx.1 : ¬ x.reverse = []), List.reverse_reverse]
      congr 1
      exact ih fun l hl => h l (List.mem_cons_of_mem x hl)

/-- No opening angle bracket survives tag removal. -/
theorem untagAux_no_lt : ∀ (xs : List Char) (b : Bool), '<' ∉ untagAux xs b := by
  intro xs
  induction xs with
  | nil => intro b; cases b <;> simp [untagAux]
  | cons c rest ih =>
    intro b
    cases b with
    | true =>
      show '<' ∉ (if c = '>' then untagAux rest false else untagAux rest true)
      by_cases hc : c = '>'
      · rw [if_pos hc]; exact ih false
      · rw [if_neg hc]; exact ih true
    | false =>
      show '<' ∉ (if c = '<' then ' ' :: untagAux rest true else c :: untagAux rest false)
      by_cases hc : c = '<'
      · rw [if_pos hc]
        intro hmem
        rcases List.mem_cons.mp hmem with h | h
        · exact absurd h (by decide)
        · exact ih true h
      · rw [if_neg hc]
        intro hmem
        rcases List.mem_cons.mp hmem with h | h
        · exact hc h.symm
        · exact ih false h

/-- Tag removal is the identity on text with no opening angle bracket. -/
theorem untagAux_id : ∀ (xs : List Char), '<' ∉ xs → untagAux xs false = xs := by
  intro xs
  induction xs with
  | nil => intro h; rfl
  | cons c rest ih =>
    intro h
    have hc : ¬ c = '<' := by
      intro hcc
      refine h ?_
      rw [← hcc]
      exact List.mem_cons_self c rest
    show (if c = '<' then ' ' :: untagAux rest true else c :: untagAux rest false) = c :: rest
    rw [if_neg hc, ih fun hm => h (List.mem_cons_of_mem c hm)]

/-- C8: the modelled `strip_markup` is idempotent — its output contains no
tag opener and is a single-space join of nonempty whitespace-free words, so
stripping it again changes nothing. -/
theorem c8_strip_idempotent (xs : List Char) :
    strip_markup (strip_markup xs) = strip_markup xs := by
  have hW : ∀ l ∈ wordsOf (untag xs), l ≠ [] ∧ ∀ c ∈ l, pyIsSpace c = false :=
    fun l hl => wordsAux_sound (untag xs) [] (by simp) l hl
  have hlt : '<' ∉ List.intercalate [' '] (wordsOf (untag xs)) := by
    intro hmem
    rcases mem_intercalate_space (wordsOf (untag xs)) '<' hmem with h | ⟨l, hl, hcl⟩
    · exact absurd h (by decide)
    · rcases wordsAux_mem (untag xs) [] l hl '<' hcl with h | h
      · exact untagAux_no_lt xs false h
      · simp at h
  show List.intercalate [' '] (wordsOf (untag (strip_markup xs))) = strip_markup xs
  rw [show untag (strip_markup xs) = strip_markup xs from untagAux_id (strip_markup xs) hlt]
  rw [show wordsOf (strip_markup xs) = wordsOf (untag xs) from
    wordsOf_intercalate (wordsOf (untag xs)) hW]
  rfl
